import Mathlib

/-!
# Verification of the dldist-file core (src/main.rs)

Shallow embedding of the program in `src/main.rs`:

* `osaD` / `calculate_osa_distance_between_two_strings` — the OSA
  (optimal string alignment) dynamic program of lines 56–90;
* `pair_combinations_count` (lines 44–53) and the pair-enumeration loops of
  `calculate_osa_distances` (lines 106–113), embedded as `pairsList`;
* a small interleaving model of the thread pool with the condition-variable
  backpressure gate of `calculate_osa_distances` (lines 93–150):
  `SchedState`, `SchedStep`, `SchedReachable`;
* the job body building a `DistanceResult` (lines 116–127), with the `f32`
  values modelled exactly by `F32`;
* the aggregation-count check of `main` (lines 227–239): `result_count_check`;
* the per-line UTF-8 decode of `read_lines` (lines 30–41): `utf8Valid`,
  `read_lines`, and the pipeline `main_model`.

Bytes are modelled as `Nat` (the kernel only compares bytes for equality,
so the `u8` bound is irrelevant to every property proved here); machine
integer widths (`u32`, `usize`) are modelled as `Nat`, every quantity
involved being bounded by line lengths / line counts where the Rust types
do not wrap for inputs the program can read.
-/

namespace DldistFile

/-- One cell of the distance matrix `dist` built by
`calculate_osa_distance_between_two_strings` (src/main.rs lines 56–90).
`osaD a b m n` is the final value of `dist[m][n]`.  The loop writes each
cell exactly once, reading only cells already final, so the matrix is
equivalently given by this recurrence:
row 0 is `0..=|b|`, column 0 is `0..=|a|` (lines 59–62), and cell
`(i+1, j+1)` (loop indices `i, j`, bytes `a[i]`, `b[j]`, lines 67–82) is the
min of deletion `dist[i][j+1]+1`, insertion `dist[i+1][j]+1`, substitution
`dist[i][j]+cost`, and — when `i>0 && j>0 && a[i]==b[j-1] && a[i-1]==b[j]`
(the variables `b_prior`/`a_prior` hold `b[j-1]`/`a[i-1]` exactly when the
`i>0`/`j>0` tests of the guard pass) — transposition `dist[i-1][j-1]+1`. -/
def osaD (a b : List Nat) : Nat → Nat → Nat
  | 0, n => n
  | m + 1, 0 => m + 1
  | m + 1, n + 1 =>
    let cost : Nat := if a.getD m 0 = b.getD n 0 then 0 else 1
    let base :=
      min (osaD a b m (n + 1) + 1)
        (min (osaD a b (m + 1) n + 1) (osaD a b m n + cost))
    if 0 < m ∧ 0 < n ∧ a.getD m 0 = b.getD (n - 1) 0 ∧
        a.getD (m - 1) 0 = b.getD n 0 then
      min base (osaD a b (m - 1) (n - 1) + 1)
    else base
  termination_by m n => (m, n)
  decreasing_by
    · exact Prod.Lex.left _ _ (Nat.lt_succ_self m)
    · exact Prod.Lex.right _ (Nat.lt_succ_self n)
    · exact Prod.Lex.left _ _ (Nat.lt_succ_self m)
    · exact Prod.Lex.left _ _ (Nat.lt_of_le_of_lt (Nat.sub_le m 1) (Nat.lt_succ_self m))

/-- `calculate_osa_distance_between_two_strings` (src/main.rs lines 56–90):
the returned value `dist[str_a.len()][str_b.len()]` (line 89). -/
def calculate_osa_distance_between_two_strings (a b : List Nat) : Nat :=
  osaD a b a.length b.length

/-- `pair_combinations_count` (src/main.rs lines 44–53): `0` for `num < 2`,
otherwise `num * (num - 1) / 2`.  `main` instantiates the `PrimInt` generic
at `u32`; modelled on `Nat` (exact for every line count whose pair count the
program could aggregate). -/
def pair_combinations_count (num : Nat) : Nat :=
  if num < 2 then 0 else num * (num - 1) / 2

/-- The pair-enumeration loops of `calculate_osa_distances`
(src/main.rs lines 106–113): `for la in 0..lines_cnt`,
`for lb in la..lines_cnt`, with `la == lb` skipped by `continue`, emitting
the pair `(la, lb)` (one submitted job per emitted pair). -/
def pairsList (n : Nat) : List (Nat × Nat) :=
  (List.range n).flatMap fun la =>
    (List.range' la (n - la)).flatMap fun lb =>
      if la = lb then [] else [(la, lb)]

/-- Modelled from the words of the spec (§2/§3): the row-major enumeration of all
unordered index pairs `(i, j)`, `i < j`, over `n` items — all pairs with
`i = 0` first with ascending `j`, then `i = 1`, etc.  Comparison definition
for the order stated by the spec; `pairsList` is the one from the source. -/
def rowMajorPairsSpec (n : Nat) : List (Nat × Nat) :=
  (List.range n).flatMap fun i =>
    (List.range' (i + 1) (n - (i + 1))).map fun j => (i, j)

/-- Exact model of the `f32` values the program computes.  `fin q` is a
finite value (finite results are carried exactly as rationals: the only
`f32` operations the program performs on them are comparisons and the
divisions below, and no claim here depends on rounding of a finite result);
`inf` is IEEE positive infinity, `nan` is IEEE NaN.  The program only ever
produces nonnegative values, so negative infinity never arises. -/
inductive F32 where
  | nan : F32
  | inf : F32
  | fin : ℚ → F32

/-- IEEE-754 division for the (nonnegative) values above, as performed by
`(distance as f32) / mean_line_length` (src/main.rs line 125):
`0/0` and `inf/inf` are NaN, `x/0` for finite `x ≠ 0` is infinity,
`x/inf` is `0`, and a NaN operand propagates. -/
def F32.div : F32 → F32 → F32
  | .nan, _ => .nan
  | _, .nan => .nan
  | .inf, .inf => .nan
  | .inf, .fin _ => .inf
  | .fin _, .inf => .fin 0
  | .fin x, .fin y =>
    if y = 0 then (if x = 0 then .nan else .inf) else .fin (x / y)

/-- `f32::partial_cmp` on the model: `None` whenever an operand is NaN,
otherwise the total order on `{finite values} ∪ {+∞}`. -/
def F32.cmpOrNone : F32 → F32 → Option Ordering
  | .nan, _ => none
  | _, .nan => none
  | .inf, .inf => some .eq
  | .inf, .fin _ => some .gt
  | .fin _, .inf => some .lt
  | .fin x, .fin y =>
    some (if x < y then .lt else if y < x then .gt else .eq)

/-- The comparator `main` uses to sort by `normalized_dldist`
(src/main.rs lines 247–258): `partial_cmp(..).unwrap_or(Ordering::Equal)`,
i.e. an incomparable (NaN) pair silently compares as equal. -/
def sort_cmp_normalized (x y : F32) : Ordering :=
  (F32.cmpOrNone x y).getD Ordering.eq

/-- `DistanceResult` (src/main.rs lines 14–20).  The field `_mean_line_len`
is named `mean_line_len` here (a leading underscore is not a Lean field
name). -/
structure DistanceResult where
  line_a : Nat
  line_b : Nat
  mean_line_len : F32
  dldist : Nat
  normalized_dldist : F32

/-- The job body executed for the pair `(la, lb)` with line contents `a`,
`b` (src/main.rs lines 116–127): the OSA distance, the mean line length
`(|a| + |b|) * 0.5` (exact in `f32` for any line the program can hold), and
`normalized_dldist = distance / mean_line_length`. -/
def mkDistanceResult (la lb : Nat) (a b : List Nat) : DistanceResult :=
  let distance := calculate_osa_distance_between_two_strings a b
  let mean : ℚ := ((a.length : ℚ) + (b.length : ℚ)) * (1 / 2)
  { line_a := la
    line_b := lb
    mean_line_len := F32.fin mean
    dldist := distance
    normalized_dldist := F32.div (F32.fin (distance : ℚ)) (F32.fin mean) }

/-- The result a worker produces for the pair key `p` over the shared
`lines` (the closure of src/main.rs lines 116–127 captures
`lines[la].clone()`, `lines[lb].clone()`). -/
def resultOfKey (lines : List (List Nat)) (p : Nat × Nat) : DistanceResult :=
  mkDistanceResult p.1 p.2 (lines.getD p.1 []) (lines.getD p.2 [])

/-- The results of `calculate_osa_distances` (src/main.rs lines 93–150)
listed in submission order: one `DistanceResult` per enumerated pair.  The
actual return value collects them in completion order; the scheduler model
below relates any completed run to this list up to permutation. -/
def sequentialResults (lines : List (List Nat)) : List DistanceResult :=
  (pairsList lines.length).map (resultOfKey lines)

/-- Control state of the submitting loop in `calculate_osa_distances`:
`ready` — about to run a loop iteration (or the very first one);
`waiting` — inside the backpressure block (lines 135–142) after a
submission; `done` — both loops exited (the code after line 144). -/
inductive SubPC where
  | ready : SubPC
  | waiting : SubPC
  | done : SubPC
deriving DecidableEq

/-- Interleaving state of `calculate_osa_distances` (src/main.rs
lines 93–150): `nextPair` counts submitted jobs (an index into the pair
list), `sub` is the control state of the submitting loop, `queue` holds jobs
submitted to the pool but not yet picked up by a worker
(`pool.queued_count()`), `running` the jobs a worker is executing
(`pool.active_count()`), `delivered` the results already sent over the
channel, in completion order. -/
structure SchedState where
  nextPair : Nat
  sub : SubPC
  queue : List (Nat × Nat)
  running : List (Nat × Nat)
  delivered : List (Nat × Nat)

/-- The state before the loops start: nothing submitted, nothing queued,
nothing running, nothing delivered. -/
def initState : SchedState :=
  { nextPair := 0, sub := .ready, queue := [], running := [], delivered := [] }

/-- One interleaving step of `calculate_osa_distances` with thread count `T`
(`pool.max_count()`) over the job list `jobs`:

* `submit` — a loop iteration reaches `pool.execute` (line 116): the next
  pair is pushed onto the pool queue and the submitter enters the
  backpressure block;
* `pass` — the backpressure block exits: the `while` condition
  `pool.queued_count() >= pool.max_count()` (line 139) is false (condvar
  wake-ups are abstracted: the step is enabled whenever the condition
  allows leaving the loop);
* `exitMainLoop` — all pairs submitted, the loops exit (after line 144);
* `start` — an idle worker (fewer than `T` running) dequeues the oldest
  queued job;
* `finish` — a running worker completes: its result is sent on the channel
  (line 119) and the condvar is notified (line 132). -/
inductive SchedStep (T : Nat) (jobs : List (Nat × Nat)) :
    SchedState → SchedState → Prop where
  | submit (s : SchedState) (hpc : s.sub = .ready)
      (hlt : s.nextPair < jobs.length) :
      SchedStep T jobs s
        { s with nextPair := s.nextPair + 1, sub := .waiting,
                 queue := s.queue ++ [jobs.getD s.nextPair (0, 0)] }
  | pass (s : SchedState) (hpc : s.sub = .waiting)
      (hq : s.queue.length < T) :
      SchedStep T jobs s { s with sub := .ready }
  | exitMainLoop (s : SchedState) (hpc : s.sub = .ready)
      (hall : s.nextPair = jobs.length) :
      SchedStep T jobs s { s with sub := .done }
  | start (s : SchedState) (j : Nat × Nat) (rest : List (Nat × Nat))
      (hq : s.queue = j :: rest) (hr : s.running.length < T) :
      SchedStep T jobs s { s with queue := rest, running := s.running ++ [j] }
  | finish (s : SchedState) (l1 l2 : List (Nat × Nat)) (j : Nat × Nat)
      (hr : s.running = l1 ++ j :: l2) :
      SchedStep T jobs s
        { s with running := l1 ++ l2, delivered := s.delivered ++ [j] }

/-- The states a run of `calculate_osa_distances` with thread count `T` over
job list `jobs` can reach. -/
def SchedReachable (T : Nat) (jobs : List (Nat × Nat)) (s : SchedState) : Prop :=
  Relation.ReflTransGen (SchedStep T jobs) initState s

/-- The internal-consistency check of `main` (src/main.rs lines 227–239):
compare `distance_results.len()` against
`pair_combinations_count(lines_cnt)` and abort (modelled as
`Except.error`) on mismatch, otherwise continue with the results exactly as
collected. -/
def result_count_check (lines_cnt : Nat) (results : List DistanceResult) :
    Except String (List DistanceResult) :=
  if results.length ≠ pair_combinations_count lines_cnt then
    Except.error
      "Somehow the size of the result combinations list does not equal the theoretical count!?"
  else
    Except.ok results

/-- Expected ranges for the remaining continuation bytes of a UTF-8
sequence: the validator below consumes one `(lo, hi)` entry per byte. -/
def utf8Lead (b : Nat) : Option (List (Nat × Nat)) :=
  if b ≤ 0x7F then some []
  else if 0xC2 ≤ b ∧ b ≤ 0xDF then some [(0x80, 0xBF)]
  else if b = 0xE0 then some [(0xA0, 0xBF), (0x80, 0xBF)]
  else if (0xE1 ≤ b ∧ b ≤ 0xEC) ∨ b = 0xEE ∨ b = 0xEF then
    some [(0x80, 0xBF), (0x80, 0xBF)]
  else if b = 0xED then some [(0x80, 0x9F), (0x80, 0xBF)]
  else if b = 0xF0 then some [(0x90, 0xBF), (0x80, 0xBF), (0x80, 0xBF)]
  else if 0xF1 ≤ b ∧ b ≤ 0xF3 then
    some [(0x80, 0xBF), (0x80, 0xBF), (0x80, 0xBF)]
  else if b = 0xF4 then some [(0x80, 0x8F), (0x80, 0xBF), (0x80, 0xBF)]
  else none

/-- Run the UTF-8 validator: `exp` lists the byte ranges still expected for
the current multi-byte sequence. -/
def utf8Run : List (Nat × Nat) → List Nat → Bool
  | [], [] => true
  | [], b :: rest =>
    match utf8Lead b with
    | some exp => utf8Run exp rest
    | none => false
  | _ :: _, [] => false
  | (lo, hi) :: exp, b :: rest =>
    decide (lo ≤ b) && decide (b ≤ hi) && utf8Run exp rest

/-- Validity of a byte sequence as UTF-8 — the check
`String::from_utf8` performs, which `BufRead::lines` applies to every line
it yields (an invalid line makes the iterator yield `Err`). -/
def utf8Valid (l : List Nat) : Bool :=
  utf8Run [] l

/-- `read_lines` (src/main.rs lines 30–41) on the raw byte lines of the
file: the `io::Result<String>` of each line is unwrapped with `.expect("")`
(line 37), so the first line that is not valid UTF-8 aborts the program
(modelled as `Except.error ""`, the `expect` message). -/
def read_lines : List (List Nat) → Except String (List (List Nat))
  | [] => .ok []
  | l :: rest =>
    if utf8Valid l then
      match read_lines rest with
      | .ok ls => .ok (l :: ls)
      | .error e => .error e
    else .error ""

/-- The data path of `main` (src/main.rs lines 186–239) up to the collected
distance results: read the lines (aborting on a non-UTF-8 line), return
early with no results when fewer than two lines, otherwise compute all
pair distances (sequential semantics; the scheduler model covers the
parallel path) and apply the count check. -/
def main_model (raw : List (List Nat)) : Except String (List DistanceResult) :=
  match read_lines raw with
  | .error e => .error e
  | .ok lines =>
    if lines.length < 2 then .ok []
    else result_count_check lines.length (sequentialResults lines)

end DldistFile

namespace DldistFile

theorem osaD_zero_left (a b : List Nat) (n : Nat) : osaD a b 0 n = n := by
  simp [osaD]

theorem osaD_zero_right (a b : List Nat) (m : Nat) : osaD a b m 0 = m := by
  cases m <;> simp [osaD]

theorem osaD_symm_aux (a b : List Nat) :
    ∀ k m n, m + n ≤ k → osaD a b m n = osaD b a n m := by
  intro k
  induction k with
  | zero =>
    intro m n h
    have hm : m = 0 := by omega
    have hn : n = 0 := by omega
    subst hm; subst hn
    rw [osaD_zero_left, osaD_zero_left]
  | succ k ih =>
    intro m n h
    match m, n with
    | 0, n => rw [osaD_zero_left, osaD_zero_right]
    | m + 1, 0 => rw [osaD_zero_left, osaD_zero_right]
    | m + 1, n + 1 =>
      have ih1 : osaD a b m (n + 1) = osaD b a (n + 1) m := ih m (n + 1) (by omega)
      have ih2 : osaD a b (m + 1) n = osaD b a n (m + 1) := ih (m + 1) n (by omega)
      have ih3 : osaD a b m n = osaD b a n m := ih m n (by omega)
      have ih4 : osaD a b (m - 1) (n - 1) = osaD b a (n - 1) (m - 1) :=
        ih (m - 1) (n - 1) (by omega)
      simp only [osaD]
      rw [ih1, ih2, ih3, ih4]
      have hcost : (if a.getD m 0 = b.getD n 0 then (0 : Nat) else 1)
          = (if b.getD n 0 = a.getD m 0 then (0 : Nat) else 1) := by
        simp [eq_comm]
      rw [hcost]
      clear hcost
      have hguard : (0 < m ∧ 0 < n ∧ a.getD m 0 = b.getD (n - 1) 0 ∧
            a.getD (m - 1) 0 = b.getD n 0)
          ↔ (0 < n ∧ 0 < m ∧ b.getD n 0 = a.getD (m - 1) 0 ∧
            b.getD (n - 1) 0 = a.getD m 0) := by
        constructor <;> (intro hx; exact ⟨hx.2.1, hx.1, hx.2.2.2.symm, hx.2.2.1.symm⟩)
      rw [if_congr hguard rfl rfl]
      by_cases hg : 0 < n ∧ 0 < m ∧ b.getD n 0 = a.getD (m - 1) 0 ∧
          b.getD (n - 1) 0 = a.getD m 0
      · rw [if_pos hg, if_pos hg]; omega
      · rw [if_neg hg, if_neg hg]; omega

theorem osaD_le_max (a b : List Nat) :
    ∀ k m n, m + n ≤ k → osaD a b m n ≤ max m n := by
  intro k
  induction k with
  | zero =>
    intro m n h
    have hm : m = 0 := by omega
    have hn : n = 0 := by omega
    subst hm; subst hn
    rw [osaD_zero_left]; omega
  | succ k ih =>
    intro m n h
    match m, n with
    | 0, n => rw [osaD_zero_left]; omega
    | m + 1, 0 => rw [osaD_zero_right]; omega
    | m + 1, n + 1 =>
      have ih3 : osaD a b m n ≤ max m n := ih m n (by omega)
      simp only [osaD]
      by_cases hc : a.getD m 0 = b.getD n 0
      · rw [if_pos hc]
        split_ifs <;> omega
      · rw [if_neg hc]
        split_ifs <;> omega

theorem flatMap_skip_eq_map (la : Nat) :
    ∀ (k s : Nat), la < s →
      ((List.range' s k).flatMap fun lb =>
        if la = lb then ([] : List (Nat × Nat)) else [(la, lb)])
        = (List.range' s k).map fun lb => (la, lb) := by
  intro k
  induction k with
  | zero => intro s _; rfl
  | succ k ih =>
    intro s hs
    rw [List.range'_succ, List.flatMap_cons, List.map_cons, if_neg (by omega),
      ih (s + 1) (by omega)]
    rfl

theorem flatMap_congr_mem {α β : Type} (l : List α) {f g : α → List β}
    (h : ∀ a ∈ l, f a = g a) : l.flatMap f = l.flatMap g := by
  induction l with
  | nil => rfl
  | cons x xs ih =>
    rw [List.flatMap_cons, List.flatMap_cons, h x (by simp),
      ih fun a ha => h a (by simp [ha])]

theorem pairsList_eq_rowMajor (n : Nat) : pairsList n = rowMajorPairsSpec n := by
  rw [pairsList, rowMajorPairsSpec]
  apply flatMap_congr_mem
  intro la hla
  have hlan : la < n := List.mem_range.mp hla
  have hsub : n - la = (n - (la + 1)) + 1 := by omega
  rw [hsub, List.range'_succ, List.flatMap_cons, if_pos rfl, List.nil_append,
    flatMap_skip_eq_map la _ _ (by omega)]

theorem two_mul_range_sum (n : Nat) : 2 * (List.range n).sum = n * (n - 1) := by
  induction n with
  | zero => rfl
  | succ k ih =>
    rw [List.range_succ, List.sum_append]
    simp only [List.sum_cons, List.sum_nil, Nat.add_sub_cancel] at ih ⊢
    cases k with
    | zero => simp
    | succ m =>
      simp only [Nat.add_sub_cancel] at ih
      have hexp : (m + 1 + 1) * (m + 1) = (m + 1) * m + 2 * (m + 1) := by ring
      omega

theorem rowMajor_length (n : Nat) :
    (rowMajorPairsSpec n).length = n * (n - 1) / 2 := by
  rw [rowMajorPairsSpec, List.length_flatMap]
  have h1 : List.map (List.length ∘ fun i =>
        (List.range' (i + 1) (n - (i + 1))).map fun j => (i, j)) (List.range n)
      = List.map (fun i => 0 + n - 1 - i) (List.range n) := by
    apply List.map_congr_left
    intro a _
    simp [List.length_range']
    omega
  rw [h1, ← List.reverse_range', ← List.range_eq_range', List.sum_reverse]
  have := two_mul_range_sum n
  omega

theorem rowMajor_mem {n : Nat} {p : Nat × Nat} (hp : p ∈ rowMajorPairsSpec n) :
    p.1 < p.2 := by
  rw [rowMajorPairsSpec] at hp
  simp only [List.mem_flatMap, List.mem_map, List.mem_range, List.mem_range'_1] at hp
  obtain ⟨i, _, j, hj, rfl⟩ := hp
  simp
  omega

theorem rowMajor_nodup (n : Nat) : (rowMajorPairsSpec n).Nodup := by
  rw [rowMajorPairsSpec, List.nodup_flatMap]
  constructor
  · intro i _
    apply List.Nodup.map
    · intro j1 j2 hj
      exact (Prod.mk.injEq _ _ _ _ ▸ hj).2
    · exact List.nodup_range' _ _
  · refine (List.pairwise_lt_range n).imp ?_
    intro i1 i2 hlt p hp1 hp2
    simp only [Function.onFun, List.mem_map] at hp1 hp2
    obtain ⟨j1, _, rfl⟩ := hp1
    obtain ⟨j2, _, h2⟩ := hp2
    have : i2 = i1 := congrArg Prod.fst h2
    omega


theorem sched_invariant (T : Nat) (jobs : List (Nat × Nat)) (hT : 1 ≤ T)
    (s : SchedState) (hs : SchedReachable T jobs s) :
    (s.sub = .ready → s.queue.length < T) ∧
    s.queue.length ≤ T ∧
    s.running.length ≤ T ∧
    (s.sub = .done → s.nextPair = jobs.length) ∧
    s.nextPair ≤ jobs.length ∧
    (↑s.delivered + ↑s.running + ↑s.queue + ↑(jobs.drop s.nextPair) :
      Multiset (Nat × Nat)) = ↑jobs := by
  induction hs with
  | refl =>
    refine ⟨fun _ => by simp [initState]; omega, by simp [initState],
      by simp [initState], fun h => SubPC.noConfusion h, by simp [initState], ?_⟩
    simp [initState]
  | @tail b c hprev hstep ih =>
    obtain ⟨ih1, ih2, ih3, ih4, ih5, ih6⟩ := ih
    cases hstep with
    | submit hpc hlt =>
      have hql := ih1 hpc
      refine ⟨fun h => SubPC.noConfusion h, ?_, ih3, fun h => SubPC.noConfusion h,
        ?_, ?_⟩
      · dsimp only
        rw [List.length_append]
        simp
        omega
      · dsimp only
        omega
      · dsimp only
        have hg : jobs.getD b.nextPair (0, 0) = jobs[b.nextPair] :=
          List.getD_eq_getElem _ _ hlt
        have hd : jobs.drop b.nextPair
            = jobs[b.nextPair] :: jobs.drop (b.nextPair + 1) :=
          List.drop_eq_getElem_cons hlt
        rw [← ih6, hd, hg]
        simp only [← Multiset.coe_add, ← Multiset.singleton_add,
          Multiset.coe_singleton, ← Multiset.cons_coe]
        abel
    | pass hpc hq =>
      exact ⟨fun _ => hq, ih2, ih3, fun h => SubPC.noConfusion h, ih5, ih6⟩
    | exitMainLoop hpc hall =>
      exact ⟨fun h => SubPC.noConfusion h, ih2, ih3, fun _ => hall, ih5, ih6⟩
    | start j rest hq hr =>
      refine ⟨?_, ?_, ?_, ih4, ih5, ?_⟩
      · intro h
        have hb := ih1 h
        rw [hq] at hb
        dsimp only
        simp at hb
        omega
      · have hb := ih2
        rw [hq] at hb
        dsimp only
        simp at hb
        omega
      · dsimp only
        rw [List.length_append]
        simp
        omega
      · rw [← ih6, hq]
        dsimp only
        simp only [← Multiset.coe_add, ← Multiset.singleton_add,
          Multiset.coe_singleton, ← Multiset.cons_coe]
        abel
    | finish l1 l2 j hr =>
      refine ⟨ih1, ih2, ?_, ih4, ih5, ?_⟩
      · have hb := ih3
        rw [hr] at hb
        dsimp only
        simp [List.length_append] at hb ⊢
        omega
      · rw [← ih6, hr]
        dsimp only
        simp only [← Multiset.coe_add, ← Multiset.singleton_add,
          Multiset.coe_singleton, ← Multiset.cons_coe]
        abel

theorem read_lines_error_of_invalid (raw : List (List Nat))
    (h : ∃ l ∈ raw, utf8Valid l = false) : read_lines raw = .error "" := by
  induction raw with
  | nil => simp at h
  | cons x xs ih =>
    obtain ⟨l, hl, hval⟩ := h
    rw [read_lines]
    by_cases hx : utf8Valid x
    · rw [if_pos hx]
      have hmem : l ∈ xs := by
        cases List.mem_cons.mp hl with
        | inl he => rw [he] at hval; rw [hval] at hx; exact absurd hx (by simp)
        | inr hm => exact hm
      rw [ih ⟨l, hmem, hval⟩]
    · rw [if_neg hx]


/-- C1: for all byte sequences `a` and `b`, the OSA distance function is
symmetric: `calculate_osa_distance_between_two_strings(a, b)` equals
`calculate_osa_distance_between_two_strings(b, a)`. -/
theorem osa_distance_symmetric (a b : List Nat) :
    calculate_osa_distance_between_two_strings a b
      = calculate_osa_distance_between_two_strings b a := by
  rw [calculate_osa_distance_between_two_strings,
    calculate_osa_distance_between_two_strings]
  exact osaD_symm_aux a b (a.length + b.length) a.length b.length (le_refl _)

/-- C2: for every `n`, the pair enumeration (the nested loops driving job
submission) produces exactly `n·(n-1)/2` distinct index pairs `(i, j)` with
`i < j`, in row-major order, never emits a self-pair, and produces an empty
sequence when `n < 2`; `pair_combinations_count n` returns this same
count. -/
theorem pair_enumeration_correct (n : Nat) :
    pairsList n = rowMajorPairsSpec n ∧
    (pairsList n).length = pair_combinations_count n ∧
    pair_combinations_count n = n * (n - 1) / 2 ∧
    (∀ p ∈ pairsList n, p.1 < p.2) ∧
    (pairsList n).Nodup ∧
    (n < 2 → pairsList n = []) := by
  have he := pairsList_eq_rowMajor n
  have hc : pair_combinations_count n = n * (n - 1) / 2 := by
    rw [pair_combinations_count]
    split_ifs with h
    · interval_cases n <;> rfl
    · rfl
  refine ⟨he, ?_, hc, ?_, ?_, ?_⟩
  · rw [he, rowMajor_length, hc]
  · intro p hp
    rw [he] at hp
    exact rowMajor_mem hp
  · rw [he]
    exact rowMajor_nodup n
  · intro h
    rw [he]
    interval_cases n <;> rfl

/-- Witness for C2 at concrete inputs `n = 1` and `n = 4`. -/
theorem pair_enumeration_correct_witness :
    pairsList 1 = [] ∧ (pairsList 4).length = pair_combinations_count 4 ∧
    ((0, 1) : Nat × Nat).1 < ((0, 1) : Nat × Nat).2 :=
  ⟨(pair_enumeration_correct 1).2.2.2.2.2 (by decide),
   (pair_enumeration_correct 4).2.1,
   (pair_enumeration_correct 4).2.2.2.1 (0, 1) (by decide)⟩

/-- C3: for all byte sequences `a` and `b`,
`calculate_osa_distance_between_two_strings(a, b)` is at most
`max(|a|, |b|)`. -/
theorem osa_distance_le_max_length (a b : List Nat) :
    calculate_osa_distance_between_two_strings a b ≤ max a.length b.length :=
  osaD_le_max a b (a.length + b.length) a.length b.length (le_refl _)

/-- C4: for every byte sequence `a`, the OSA distance between `a` and the
empty sequence is `|a|`, in both argument orders. -/
theorem osa_distance_empty_line (a : List Nat) :
    calculate_osa_distance_between_two_strings a [] = a.length ∧
    calculate_osa_distance_between_two_strings [] a = a.length := by
  constructor
  · rw [calculate_osa_distance_between_two_strings]
    exact osaD_zero_right a [] a.length
  · rw [calculate_osa_distance_between_two_strings]
    exact osaD_zero_left [] a a.length

/-- C5: the OSA distance is not a metric: there are byte sequences
`a`, `b`, `c` with `distance(a, c) > distance(a, b) + distance(b, c)`
(here `"ca"`, `"ac"`, `"abc"`: `3 > 1 + 1`). -/
theorem osa_triangle_inequality_violation :
    ∃ a b c : List Nat,
      calculate_osa_distance_between_two_strings a b
          + calculate_osa_distance_between_two_strings b c
        < calculate_osa_distance_between_two_strings a c := by
  refine ⟨[99, 97], [97, 99], [97, 98, 99], ?_⟩
  have h1 : calculate_osa_distance_between_two_strings [99, 97] [97, 99] = 1 := by
    simp [calculate_osa_distance_between_two_strings, osaD]
  have h2 : calculate_osa_distance_between_two_strings [97, 99] [97, 98, 99] = 1 := by
    simp [calculate_osa_distance_between_two_strings, osaD]
  have h3 : calculate_osa_distance_between_two_strings [99, 97] [97, 98, 99] = 3 := by
    simp [calculate_osa_distance_between_two_strings, osaD]
  omega

/-- C6 counterexample: on the pair of two empty lines the program does not
produce an explicitly defined numeric `normalized_dldist`: the job body
computes `0.0 / 0.0`, which is NaN — refuting the claim that an explicit
behavior (such as 0 or a sentinel) is defined for this case. -/
theorem normalized_dldist_nan_on_empty_pair :
    (mkDistanceResult 0 1 [] []).normalized_dldist = F32.nan := by
  simp [mkDistanceResult, F32.div, calculate_osa_distance_between_two_strings, osaD]

/-- C6 (amended): when both lines of a pair are empty, `normalized_dldist`
is the unchecked NaN from `0.0 / 0.0`; the sort comparator then silently
maps every comparison involving it to `Ordering::Equal` via
`partial_cmp(..).unwrap_or(Equal)`. -/
theorem normalized_dldist_nan_unhandled (la lb : Nat) :
    (mkDistanceResult la lb [] []).normalized_dldist = F32.nan ∧
    (∀ y : F32,
      sort_cmp_normalized (mkDistanceResult la lb [] []).normalized_dldist y
        = Ordering.eq) ∧
    (∀ y : F32,
      sort_cmp_normalized y (mkDistanceResult la lb [] []).normalized_dldist
        = Ordering.eq) := by
  have hnan : (mkDistanceResult la lb [] []).normalized_dldist = F32.nan := by
    simp [mkDistanceResult, F32.div, calculate_osa_distance_between_two_strings, osaD]
  refine ⟨hnan, ?_, ?_⟩
  · intro y
    rw [hnan]
    cases y <;> rfl
  · intro y
    rw [hnan]
    cases y <;> rfl

/-- C7: in every reachable state of a run with worker count `T ≥ 1`, the
number of jobs queued-or-executing never exceeds `2×T`, and when the
backpressure cap is reached no step can submit another job (the submitting
control flow is blocked until a worker finishes). -/
theorem backpressure_cap (T : Nat) (jobs : List (Nat × Nat)) (s : SchedState)
    (hT : 1 ≤ T) (hs : SchedReachable T jobs s) :
    s.queue.length + s.running.length ≤ 2 * T ∧
    (T ≤ s.queue.length →
      ∀ s', SchedStep T jobs s s' → s'.nextPair = s.nextPair) := by
  obtain ⟨h1, h2, h3, -, -, -⟩ := sched_invariant T jobs hT s hs
  refine ⟨by omega, ?_⟩
  intro hcap s' hstep
  cases hstep with
  | submit hpc hlt =>
    have := h1 hpc
    omega
  | pass hpc hq => rfl
  | exitMainLoop hpc hall => rfl
  | start j rest hq hr => rfl
  | finish l1 l2 j hr => rfl

/-- Witness for C7 at `T = 1`, an empty job list, and the initial state. -/
theorem backpressure_cap_witness :
    initState.queue.length + initState.running.length ≤ 2 * 1 ∧
    (1 ≤ initState.queue.length →
      ∀ s', SchedStep 1 [] initState s' → s'.nextPair = initState.nextPair) :=
  backpressure_cap 1 [] initState (by decide) Relation.ReflTransGen.refl

/-- C8: the aggregation check of `main` compares the collected result count
with `pair_combinations_count` (which equals `n·(n-1)/2` on every input
`main` lets through), and a mismatch is fatal — an abort with a diagnostic —
while a match leaves the results untouched (no truncation or padding). -/
theorem aggregation_count_check_fatal (n : Nat) (results : List DistanceResult) :
    (2 ≤ n → pair_combinations_count n = n * (n - 1) / 2) ∧
    (results.length ≠ pair_combinations_count n →
      result_count_check n results = Except.error
        "Somehow the size of the result combinations list does not equal the theoretical count!?") ∧
    (results.length = pair_combinations_count n →
      result_count_check n results = Except.ok results) := by
  refine ⟨?_, ?_, ?_⟩
  · intro h
    rw [pair_combinations_count, if_neg (by omega)]
  · intro h
    rw [result_count_check, if_pos h]
  · intro h
    rw [result_count_check, if_neg (not_not_intro h)]

/-- Witness for C8: a mismatching count (0 results for 3 lines) aborts, a
matching count (0 results for 0 lines) passes the results through. -/
theorem aggregation_count_check_fatal_witness :
    result_count_check 3 [] = Except.error
      "Somehow the size of the result combinations list does not equal the theoretical count!?"
      ∧ pair_combinations_count 3 = 3 * (3 - 1) / 2
      ∧ result_count_check 0 [] = Except.ok [] :=
  ⟨(aggregation_count_check_fatal 3 []).2.1 (by decide),
   (aggregation_count_check_fatal 3 []).1 (by decide),
   (aggregation_count_check_fatal 0 []).2.2 (by decide)⟩

/-- C9: for fixed input lines, every completed run of the scheduler —
whatever the worker count `T ≥ 1` and whatever the interleaving — delivers
exactly the results of the sequential pair enumeration, up to arrival
order; the right-hand side does not depend on `T`, so the result multiset
is identical for every worker count, and `T = 1` agrees with the parallel
path. -/
theorem worker_count_invariant_results (T : Nat) (lines : List (List Nat))
    (s : SchedState) (hT : 1 ≤ T)
    (hs : SchedReachable T (pairsList lines.length) s)
    (hdone : s.sub = .done) (hq : s.queue = []) (hr : s.running = []) :
    (s.delivered.map (resultOfKey lines)).Perm (sequentialResults lines) := by
  obtain ⟨-, -, -, h4, -, h6⟩ :=
    sched_invariant T (pairsList lines.length) hT s hs
  rw [h4 hdone, List.drop_length, hq, hr] at h6
  simp only [Multiset.coe_nil, add_zero] at h6
  exact (Multiset.coe_eq_coe.mp h6).map (resultOfKey lines)

/-- Witness for C9: a complete run with `T = 1` over the two lines
`"a"`, `"b"`. -/
theorem worker_count_invariant_results_witness :
    (([((0 : Nat), (1 : Nat))]).map (resultOfKey [[97], [98]])).Perm
      (sequentialResults [[97], [98]]) := by
  have st1 : SchedStep 1 (pairsList 2) initState
      ⟨1, .waiting, [(0, 1)], [], []⟩ :=
    SchedStep.submit initState rfl (by decide)
  have st2 : SchedStep 1 (pairsList 2) ⟨1, .waiting, [(0, 1)], [], []⟩
      ⟨1, .waiting, [], [(0, 1)], []⟩ :=
    SchedStep.start _ (0, 1) [] rfl (by decide)
  have st3 : SchedStep 1 (pairsList 2) ⟨1, .waiting, [], [(0, 1)], []⟩
      ⟨1, .ready, [], [(0, 1)], []⟩ :=
    SchedStep.pass _ rfl (by decide)
  have st4 : SchedStep 1 (pairsList 2) ⟨1, .ready, [], [(0, 1)], []⟩
      ⟨1, .done, [], [(0, 1)], []⟩ :=
    SchedStep.exitMainLoop _ rfl rfl
  have st5 : SchedStep 1 (pairsList 2) ⟨1, .done, [], [(0, 1)], []⟩
      ⟨1, .done, [], [], [(0, 1)]⟩ :=
    SchedStep.finish _ [] [] (0, 1) rfl
  have hreach : SchedReachable 1 (pairsList 2) ⟨1, .done, [], [], [(0, 1)]⟩ :=
    Relation.ReflTransGen.tail
      (Relation.ReflTransGen.tail
        (Relation.ReflTransGen.tail
          (Relation.ReflTransGen.tail
            (Relation.ReflTransGen.tail Relation.ReflTransGen.refl st1)
            st2)
          st3)
        st4)
      st5
  exact worker_count_invariant_results 1 [[97], [98]]
    ⟨1, .done, [], [], [(0, 1)]⟩ (by decide) hreach rfl rfl rfl

/-- C10: if any input line is not valid UTF-8, the per-line unwrap in
`read_lines` aborts the program (modelled as `Except.error ""`), so the
pipeline produces no distance results at all. -/
theorem invalid_utf8_aborts (raw : List (List Nat))
    (h : ∃ l ∈ raw, utf8Valid l = false) :
    read_lines raw = Except.error "" ∧ main_model raw = Except.error "" := by
  have hr := read_lines_error_of_invalid raw h
  refine ⟨hr, ?_⟩
  simp [main_model, hr]

/-- Witness for C10: a file whose first line is the single byte `0xFF`. -/
theorem invalid_utf8_aborts_witness :
    read_lines [[255], [97]] = Except.error "" ∧
    main_model [[255], [97]] = Except.error "" :=
  invalid_utf8_aborts [[255], [97]] ⟨[255], by decide, by decide⟩


end DldistFile
